import Mathlib

/-!
Verification of the perspective-transform engine of
react-perspective-transform (src/PerspectiveTransform.tsx).

The numeric pipeline of computeCssMatrix (nested helpers solve, adj,
multmm, basisToPoints, the adjugate product, the in-place normalization
loop and the matrix3d embedding) is translated function by function over
exact rationals, and the surrounding React state behaviour (the recompute
layout effect, the drag handler, the ResizeObserver auto-fit effect and
the localStorage load/save effects) is translated as explicit state
transition functions.

Conventions: JavaScript numbers are modelled as rationals; the string
result of computeCssMatrix is modelled as Option (List rationals), where
none stands for the empty string returned on a zero determinant and
some l stands for the matrix3d string whose 16 comma-joined entries are l.
Division by zero (which in JavaScript produces Infinity or NaN entries)
is the rational junk value 0; the theorems about that path only use that
a matrix is returned at all and that the correspondence property fails.
-/

namespace PT

/-- A 2D point, the Corner interface of the source (fields x, y). -/
structure Corner where
  x : ℚ
  y : ℚ
deriving DecidableEq

/-- A length-3 vector, modelling a JS number[] of length 3. -/
@[ext] structure V3 where
  v0 : ℚ
  v1 : ℚ
  v2 : ℚ
deriving DecidableEq

/-- A 3x3 matrix in row-major flat form, modelling a JS number[] of
length 9; field mi is entry [i] of the array. -/
@[ext] structure M3 where
  m0 : ℚ
  m1 : ℚ
  m2 : ℚ
  m3 : ℚ
  m4 : ℚ
  m5 : ℚ
  m6 : ℚ
  m7 : ℚ
  m8 : ℚ
deriving DecidableEq

/-- The determinant expression computed at the top of the source's
solve helper (cofactor expansion along the first row). -/
def det3 (A : M3) : ℚ :=
  A.m0 * (A.m4 * A.m8 - A.m5 * A.m7) -
    A.m1 * (A.m3 * A.m8 - A.m5 * A.m6) +
    A.m2 * (A.m3 * A.m7 - A.m4 * A.m6)

/-- The source's solve helper: returns null (none) when the determinant
is zero, otherwise multiplies the adjugate (scaled by 1/det) with b. -/
def solve (A : M3) (b : V3) : Option V3 :=
  if det3 A = 0 then none
  else
    let invDet := 1 / det3 A
    let a0 := (A.m4 * A.m8 - A.m5 * A.m7) * invDet
    let a1 := (A.m2 * A.m7 - A.m1 * A.m8) * invDet
    let a2 := (A.m1 * A.m5 - A.m2 * A.m4) * invDet
    let a3 := (A.m5 * A.m6 - A.m3 * A.m8) * invDet
    let a4 := (A.m0 * A.m8 - A.m2 * A.m6) * invDet
    let a5 := (A.m2 * A.m3 - A.m0 * A.m5) * invDet
    let a6 := (A.m3 * A.m7 - A.m4 * A.m6) * invDet
    let a7 := (A.m1 * A.m6 - A.m0 * A.m7) * invDet
    let a8 := (A.m0 * A.m4 - A.m1 * A.m3) * invDet
    some ⟨a0 * b.v0 + a1 * b.v1 + a2 * b.v2,
          a3 * b.v0 + a4 * b.v1 + a5 * b.v2,
          a6 * b.v0 + a7 * b.v1 + a8 * b.v2⟩

/-- The source's adj helper: the classical adjugate of a 3x3 matrix. -/
def adj (m : M3) : M3 :=
  ⟨m.m4 * m.m8 - m.m5 * m.m7,
   m.m2 * m.m7 - m.m1 * m.m8,
   m.m1 * m.m5 - m.m2 * m.m4,
   m.m5 * m.m6 - m.m3 * m.m8,
   m.m0 * m.m8 - m.m2 * m.m6,
   m.m2 * m.m3 - m.m0 * m.m5,
   m.m3 * m.m7 - m.m4 * m.m6,
   m.m1 * m.m6 - m.m0 * m.m7,
   m.m0 * m.m4 - m.m1 * m.m3⟩

/-- The source's multmm helper with its triple loop unrolled:
entry 3i+j of the result is the sum over k of a[3i+k]*b[3k+j]. -/
def multmm (a b : M3) : M3 :=
  ⟨a.m0 * b.m0 + a.m1 * b.m3 + a.m2 * b.m6,
   a.m0 * b.m1 + a.m1 * b.m4 + a.m2 * b.m7,
   a.m0 * b.m2 + a.m1 * b.m5 + a.m2 * b.m8,
   a.m3 * b.m0 + a.m4 * b.m3 + a.m5 * b.m6,
   a.m3 * b.m1 + a.m4 * b.m4 + a.m5 * b.m7,
   a.m3 * b.m2 + a.m4 * b.m5 + a.m5 * b.m8,
   a.m6 * b.m0 + a.m7 * b.m3 + a.m8 * b.m6,
   a.m6 * b.m1 + a.m7 * b.m4 + a.m8 * b.m7,
   a.m6 * b.m2 + a.m7 * b.m5 + a.m8 * b.m8⟩

/-- The matrix m built inside basisToPoints from three corners:
[p1.x p2.x p3.x; p1.y p2.y p3.y; 1 1 1]. -/
def mOf (p1 p2 p3 : Corner) : M3 :=
  ⟨p1.x, p2.x, p3.x, p1.y, p2.y, p3.y, 1, 1, 1⟩

/-- The homogeneous lift (x, y, 1) of a corner, the vector v built
inside basisToPoints from p4. -/
def hom (p : Corner) : V3 :=
  ⟨p.x, p.y, 1⟩

/-- The column scaling performed at the end of basisToPoints:
column j of m is multiplied by s[j]. -/
def scaleCols (m : M3) (s : V3) : M3 :=
  ⟨m.m0 * s.v0, m.m1 * s.v1, m.m2 * s.v2,
   m.m3 * s.v0, m.m4 * s.v1, m.m5 * s.v2,
   m.m6 * s.v0, m.m7 * s.v1, m.m8 * s.v2⟩

/-- The source's basisToPoints helper. -/
def basisToPoints (p1 p2 p3 p4 : Corner) : Option M3 :=
  match solve (mOf p1 p2 p3) (hom p4) with
  | none => none
  | some s => some (scaleCols (mOf p1 p2 p3) s)

/-- The unnormalized homography m3 = multmm(m2, adj(m1)) computed by
computeCssMatrix once both basisToPoints calls succeed. -/
def preMatrix (s1 s2 s3 s4 d1 d2 d3 d4 : Corner) : Option M3 :=
  match basisToPoints s1 s2 s3 s4, basisToPoints d1 d2 d3 d4 with
  | some m1, some m2 => some (multmm m2 (adj m1))
  | _, _ => none

/-- The source's in-place normalization loop m3[i] /= m3[8] for
i = 0..8 in order; since index 8 comes last, every entry is divided by
the original m3[8] (the last iteration yields m3[8]/m3[8]). -/
def normalizeM (M : M3) : M3 :=
  ⟨M.m0 / M.m8, M.m1 / M.m8, M.m2 / M.m8,
   M.m3 / M.m8, M.m4 / M.m8, M.m5 / M.m8,
   M.m6 / M.m8, M.m7 / M.m8, M.m8 / M.m8⟩

/-- The 16-entry matrix3d sequence built by computeCssMatrix from the
normalized 3x3 entries. -/
def embed16 (m : M3) : List ℚ :=
  [m.m0, m.m3, 0, m.m6,
   m.m1, m.m4, 0, m.m7,
   0, 0, 1, 0,
   m.m2, m.m5, 0, m.m8]

/-- The source's computeCssMatrix: none models the empty string
returned when either basisToPoints call yields null; some l models the
matrix3d string with entries l. -/
def computeCssMatrix (s1 s2 s3 s4 d1 d2 d3 d4 : Corner) : Option (List ℚ) :=
  match preMatrix s1 s2 s3 s4 d1 d2 d3 d4 with
  | some M => some (embed16 (normalizeM M))
  | none => none

/-- The collinearity determinant of three corners: det3 of the matrix
basisToPoints builds from them.  It is zero exactly when the three
points are collinear (or coincident). -/
def colDet (a b c : Corner) : ℚ :=
  det3 (mOf a b c)

/-- Boolean check that the unnormalized homography, when it exists, has
a nonzero bottom-right entry (the divisor of the normalization loop). -/
def chkM8 (s1 s2 s3 s4 d1 d2 d3 d4 : Corner) : Bool :=
  match preMatrix s1 s2 s3 s4 d1 d2 d3 d4 with
  | some M => decide (M.m8 ≠ 0)
  | none => true

/-- Matrix-vector product (row-major), used to state what the computed
homography does to a point in homogeneous coordinates. -/
def colmul (A : M3) (v : V3) : V3 :=
  ⟨A.m0 * v.v0 + A.m1 * v.v1 + A.m2 * v.v2,
   A.m3 * v.v0 + A.m4 * v.v1 + A.m5 * v.v2,
   A.m6 * v.v0 + A.m7 * v.v1 + A.m8 * v.v2⟩

/-- Scalar multiple of a vector. -/
def smulV (c : ℚ) (v : V3) : V3 :=
  ⟨c * v.v0, c * v.v1, c * v.v2⟩

/-- Scalar multiple of a matrix. -/
def smulM (c : ℚ) (A : M3) : M3 :=
  ⟨c * A.m0, c * A.m1, c * A.m2,
   c * A.m3, c * A.m4, c * A.m5,
   c * A.m6, c * A.m7, c * A.m8⟩

/-- Vector addition. -/
def addV (a b : V3) : V3 :=
  ⟨a.v0 + b.v0, a.v1 + b.v1, a.v2 + b.v2⟩

/-- The 3x3 identity matrix. -/
def idM : M3 :=
  ⟨1, 0, 0, 0, 1, 0, 0, 0, 1⟩

/-- H maps p to q projectively: the third homogeneous coordinate of
H·(p.x, p.y, 1) is nonzero and the perspective divide lands exactly on
q. -/
@[reducible] def mapsTo (H : M3) (p q : Corner) : Prop :=
  H.m6 * p.x + H.m7 * p.y + H.m8 ≠ 0 ∧
  (H.m0 * p.x + H.m1 * p.y + H.m2) / (H.m6 * p.x + H.m7 * p.y + H.m8) = q.x ∧
  (H.m3 * p.x + H.m4 * p.y + H.m5) / (H.m6 * p.x + H.m7 * p.y + H.m8) = q.y

/-- Modelled from the spec: the true inverse B⁻¹ = adj(B)/det(B) of a
3x3 matrix, for the refinement comparison of the adjugate-only variant
against the true-inverse variant. -/
def inv3 (M : M3) : M3 :=
  smulM (1 / det3 M) (adj M)

/-- The Points interface of the source: four named corners. -/
structure Points where
  topLeft : Corner
  topRight : Corner
  bottomRight : Corner
  bottomLeft : Corner
deriving DecidableEq

/-- The four corner names. -/
inductive CName where
  | topLeft
  | topRight
  | bottomRight
  | bottomLeft
deriving DecidableEq

/-- Read the named corner of a Points value. -/
def getCorner (p : Points) : CName → Corner
  | CName.topLeft => p.topLeft
  | CName.topRight => p.topRight
  | CName.bottomRight => p.bottomRight
  | CName.bottomLeft => p.bottomLeft

/-- The spread update of handleDrag's onMove:
updatedPoints = { ...points, [corner]: { x, y } }. -/
def movePoint (p : Points) (c : CName) (q : Corner) : Points :=
  match c with
  | CName.topLeft => { p with topLeft := q }
  | CName.topRight => { p with topRight := q }
  | CName.bottomRight => { p with bottomRight := q }
  | CName.bottomLeft => { p with bottomLeft := q }

/-- The default points of the useState initializer. -/
def defaultPoints : Points :=
  ⟨⟨0, 0⟩, ⟨100, 0⟩, ⟨100, 100⟩, ⟨0, 100⟩⟩

/-- The state the matrix-recompute layout effect acts on: the current
points and the matrix state variable (none models the initial and
failure empty string). -/
structure Session where
  points : Points
  matrix : Option (List ℚ)
deriving DecidableEq

/-- The matrix-recompute layout effect: early return when the measured
rect has zero width or height; otherwise setMatrix of the
computeCssMatrix result on the rect corners (source) and the current
points in the fixed order topLeft, topRight, bottomRight, bottomLeft
(destination), whatever that result is. -/
def recomputeEffect (w h : ℚ) (st : Session) : Session :=
  if w = 0 ∨ h = 0 then st
  else
    { st with
      matrix := computeCssMatrix ⟨0, 0⟩ ⟨w, 0⟩ ⟨w, h⟩ ⟨0, h⟩
        st.points.topLeft st.points.topRight
        st.points.bottomRight st.points.bottomLeft }

/-- A corner move entering through handleDrag: only the points change;
the matrix is recomputed by a separate effect. -/
def moveCorner (st : Session) (c : CName) (q : Corner) : Session :=
  { st with points := movePoint st.points c q }

/-- The ResizeObserver auto-fit step: the effect is not installed when
points are controlled or stored points have been loaded, and the
callback only updates when width and height are strictly positive; the
update rewrites topRight, bottomRight, bottomLeft from the measurement
and leaves topLeft untouched. -/
def resizeStep (controlled hydrated : Bool) (w h : ℚ) (p : Points) : Points :=
  if controlled || hydrated then p
  else if 0 < w ∧ 0 < h then
    { p with topRight := ⟨w, 0⟩, bottomRight := ⟨w, h⟩, bottomLeft := ⟨0, h⟩ }
  else p

/-- A value read from localStorage: either unparseable JSON, or a parsed
record in which each of the four corner fields may be missing. -/
inductive StoredVal where
  | malformed
  | record (tl tr br bl : Option Corner)
deriving DecidableEq

/-- The point-seeding part of the load effect: a parsed record is
accepted only when all four named corners are present; otherwise (and
on parse failure or absent key) the current (default) points stand. -/
def loadPoints (cur : Points) (saved : Option StoredVal) : Points :=
  match saved with
  | some (StoredVal.record (some a) (some b) (some c) (some d)) => ⟨a, b, c, d⟩
  | _ => cur

/-- The events relevant to the persistence claims: a run of the load
effect and a run of the save effect. -/
inductive Ev where
  | load
  | save
deriving DecidableEq

/-- How the load effect updates hasHydrated: it returns early (leaving
the flag alone) when points are controlled or no storageKey is given,
and otherwise ends with setHasHydrated(true). -/
def loadHydrate (controlled sk hydrated : Bool) : Bool :=
  if controlled || !sk then hydrated else true

/-- Whether one run of the save effect writes to localStorage:
it writes iff a storageKey is given and hasHydrated is true. -/
def saveWrites (sk hydrated : Bool) : Bool :=
  sk && hydrated

/-- The hasHydrated flag after one event. -/
def stepHy (controlled sk hydrated : Bool) : Ev → Bool
  | Ev.load => loadHydrate controlled sk hydrated
  | Ev.save => hydrated

/-- The hasHydrated flag after a sequence of events. -/
def runHy (controlled sk hydrated : Bool) : List Ev → Bool
  | [] => hydrated
  | e :: es => runHy controlled sk (stepHy controlled sk hydrated e) es

/-- Whether any event of the sequence writes to localStorage. -/
def writesIn (controlled sk hydrated : Bool) : List Ev → Bool
  | [] => false
  | e :: es =>
    (match e with
     | Ev.save => saveWrites sk hydrated
     | Ev.load => false) ||
    writesIn controlled sk (stepHy controlled sk hydrated e) es

/-- multmm M (adj M) is det3 M times the identity (Laplace expansion,
a polynomial identity of the nine entries). -/
theorem multmm_adj_self (M : M3) : multmm M (adj M) = smulM (det3 M) idM := by
  ext <;> simp only [multmm, adj, smulM, idM, det3] <;> ring

/-- multmm (adj M) M is det3 M times the identity. -/
theorem adj_multmm_self (M : M3) : multmm (adj M) M = smulM (det3 M) idM := by
  ext <;> simp only [multmm, adj, smulM, idM, det3] <;> ring

/-- Matrix-vector product distributes over the matrix product. -/
theorem colmul_multmm (A B : M3) (v : V3) :
    colmul (multmm A B) v = colmul A (colmul B v) := by
  ext <;> simp only [multmm, colmul] <;> ring

/-- Scalars move out of the vector argument. -/
theorem colmul_smulV (A : M3) (c : ℚ) (v : V3) :
    colmul A (smulV c v) = smulV c (colmul A v) := by
  ext <;> simp only [colmul, smulV] <;> ring

/-- Scalars move out of the matrix argument. -/
theorem colmul_smulM (c : ℚ) (A : M3) (v : V3) :
    colmul (smulM c A) v = smulV c (colmul A v) := by
  ext <;> simp only [colmul, smulM, smulV] <;> ring

/-- Composition of vector scalings. -/
theorem smulV_smulV (a b : ℚ) (v : V3) : smulV a (smulV b v) = smulV (a * b) v := by
  ext <;> simp only [smulV] <;> ring

/-- Scaling a vector by one. -/
theorem smulV_one (v : V3) : smulV 1 v = v := by
  ext <;> simp [smulV]

/-- Composition of matrix scalings. -/
theorem smulM_smulM (a b : ℚ) (X : M3) : smulM a (smulM b X) = smulM (a * b) X := by
  ext <;> simp only [smulM] <;> ring

/-- The identity matrix acts as the identity. -/
theorem colmul_idM (v : V3) : colmul idM v = v := by
  ext <;> simp [colmul, idM]

/-- Applying adj M after M scales by the determinant. -/
theorem adj_colmul_self (M : M3) (v : V3) :
    colmul (adj M) (colmul M v) = smulV (det3 M) v := by
  rw [← colmul_multmm, adj_multmm_self, colmul_smulM, colmul_idM]

/-- The matrix product is associative. -/
theorem multmm_assoc (A B C : M3) :
    multmm (multmm A B) C = multmm A (multmm B C) := by
  ext <;> simp only [multmm] <;> ring

/-- Scalars move out of the right factor. -/
theorem multmm_smulM_right (A : M3) (c : ℚ) (B : M3) :
    multmm A (smulM c B) = smulM c (multmm A B) := by
  ext <;> simp only [multmm, smulM] <;> ring

/-- Scalars move out of the left factor. -/
theorem multmm_smulM_left (c : ℚ) (A B : M3) :
    multmm (smulM c A) B = smulM c (multmm A B) := by
  ext <;> simp only [multmm, smulM] <;> ring

/-- The identity matrix is a right unit. -/
theorem multmm_idM_right (A : M3) : multmm A idM = A := by
  ext <;> simp [multmm, idM]

/-- Multiplying by a scaled identity on the right scales the matrix. -/
theorem multmm_smul_idM (A : M3) (c : ℚ) : multmm A (smulM c idM) = smulM c A := by
  rw [multmm_smulM_right, multmm_idM_right]

/-- A scaled matrix equation can be cancelled by a nonzero scalar. -/
theorem smulM_cancel (a : ℚ) (ha : a ≠ 0) (X Y : M3) (h : smulM a X = smulM a Y) :
    X = Y := by
  ext
  · exact mul_left_cancel₀ ha (congrArg M3.m0 h)
  · exact mul_left_cancel₀ ha (congrArg M3.m1 h)
  · exact mul_left_cancel₀ ha (congrArg M3.m2 h)
  · exact mul_left_cancel₀ ha (congrArg M3.m3 h)
  · exact mul_left_cancel₀ ha (congrArg M3.m4 h)
  · exact mul_left_cancel₀ ha (congrArg M3.m5 h)
  · exact mul_left_cancel₀ ha (congrArg M3.m6 h)
  · exact mul_left_cancel₀ ha (congrArg M3.m7 h)
  · exact mul_left_cancel₀ ha (congrArg M3.m8 h)

/-- Rescaling the normalized matrix by the original bottom-right entry
recovers the matrix. -/
theorem smulM_normalizeM (C : M3) (h8 : C.m8 ≠ 0) : smulM C.m8 (normalizeM C) = C := by
  ext <;> simp only [smulM, normalizeM] <;> field_simp

/-- The normalized matrix acts like the scaled original. -/
theorem normalizeM_colmul (M : M3) (v : V3) :
    colmul (normalizeM M) v = smulV (1 / M.m8) (colmul M v) := by
  ext <;> simp only [normalizeM, colmul, smulV] <;> ring

/-- Two matrices agreeing on the three basis vectors are equal. -/
theorem eq_of_cols (A B : M3)
    (h1 : colmul A ⟨1, 0, 0⟩ = colmul B ⟨1, 0, 0⟩)
    (h2 : colmul A ⟨0, 1, 0⟩ = colmul B ⟨0, 1, 0⟩)
    (h3 : colmul A ⟨0, 0, 1⟩ = colmul B ⟨0, 0, 1⟩) : A = B := by
  simp only [colmul, mul_one, mul_zero, add_zero, zero_add, V3.mk.injEq] at h1 h2 h3
  obtain ⟨a1, a2, a3⟩ := h1
  obtain ⟨b1, b2, b3⟩ := h2
  obtain ⟨c1, c2, c3⟩ := h3
  ext <;> assumption

/-- A matrix with nonzero determinant has trivial kernel. -/
theorem colmul_zero_of_det (M : M3) (hdet : det3 M ≠ 0) (v : V3)
    (h : colmul M v = ⟨0, 0, 0⟩) : v = ⟨0, 0, 0⟩ := by
  have hadj := adj_colmul_self M v
  rw [h] at hadj
  have hz : colmul (adj M) (⟨0, 0, 0⟩ : V3) = ⟨0, 0, 0⟩ := by
    ext <;> simp [colmul]
  rw [hz] at hadj
  have h0 := congrArg V3.v0 hadj.symm
  have h1 := congrArg V3.v1 hadj.symm
  have h2 := congrArg V3.v2 hadj.symm
  simp only [smulV, mul_eq_zero] at h0 h1 h2
  ext
  · rcases h0 with h' | h'
    · exact absurd h' hdet
    · exact h'
  · rcases h1 with h' | h'
    · exact absurd h' hdet
    · exact h'
  · rcases h2 with h' | h'
    · exact absurd h' hdet
    · exact h'

/-- When the determinant is nonzero, solve succeeds. -/
theorem solve_of_det (A : M3) (b : V3) (h : det3 A ≠ 0) :
    ∃ s, solve A b = some s := by
  unfold solve
  rw [if_neg h]
  exact ⟨_, rfl⟩

/-- Correctness of solve: a returned s satisfies A·s = b (Cramer). -/
theorem solve_colmul (A : M3) (b s : V3) (h : solve A b = some s) :
    det3 A ≠ 0 ∧ colmul A s = b := by
  by_cases hd : det3 A = 0
  · rw [solve, if_pos hd] at h
    exact absurd h (by simp)
  · rw [solve, if_neg hd] at h
    refine ⟨hd, ?_⟩
    injection h with hs
    subst hs
    ext <;> (simp only [colmul]; field_simp; simp only [det3]; ring)

/-- First Cramer projection: the first row of adj(m)·v is the
collinearity determinant of (p4, p2, p3). -/
theorem adjv_v0 (p1 p2 p3 p4 : Corner) :
    (colmul (adj (mOf p1 p2 p3)) (hom p4)).v0 = colDet p4 p2 p3 := by
  simp only [colmul, adj, mOf, hom, colDet, det3]
  ring

/-- Second Cramer projection: the second row of adj(m)·v is the
collinearity determinant of (p1, p4, p3). -/
theorem adjv_v1 (p1 p2 p3 p4 : Corner) :
    (colmul (adj (mOf p1 p2 p3)) (hom p4)).v1 = colDet p1 p4 p3 := by
  simp only [colmul, adj, mOf, hom, colDet, det3]
  ring

/-- Third Cramer projection: the third row of adj(m)·v is the
collinearity determinant of (p1, p2, p4). -/
theorem adjv_v2 (p1 p2 p3 p4 : Corner) :
    (colmul (adj (mOf p1 p2 p3)) (hom p4)).v2 = colDet p1 p2 p4 := by
  simp only [colmul, adj, mOf, hom, colDet, det3]
  ring

/-- Column scaling multiplies the determinant by the product of the
scale factors. -/
theorem det3_scaleCols (m : M3) (s : V3) :
    det3 (scaleCols m s) = det3 m * (s.v0 * s.v1 * s.v2) := by
  simp only [det3, scaleCols]
  ring

/-- The first column of the scaled basis matrix. -/
theorem scaleCols_e1 (p1 p2 p3 : Corner) (s : V3) :
    colmul (scaleCols (mOf p1 p2 p3) s) ⟨1, 0, 0⟩ = smulV s.v0 (hom p1) := by
  ext <;> simp only [colmul, scaleCols, mOf, smulV, hom] <;> ring

/-- The second column of the scaled basis matrix. -/
theorem scaleCols_e2 (p1 p2 p3 : Corner) (s : V3) :
    colmul (scaleCols (mOf p1 p2 p3) s) ⟨0, 1, 0⟩ = smulV s.v1 (hom p2) := by
  ext <;> simp only [colmul, scaleCols, mOf, smulV, hom] <;> ring

/-- The third column of the scaled basis matrix. -/
theorem scaleCols_e3 (p1 p2 p3 : Corner) (s : V3) :
    colmul (scaleCols (mOf p1 p2 p3) s) ⟨0, 0, 1⟩ = smulV s.v2 (hom p3) := by
  ext <;> simp only [colmul, scaleCols, mOf, smulV, hom] <;> ring

/-- The column sum of the scaled matrix is m·s. -/
theorem scaleCols_ones (m : M3) (s : V3) :
    colmul (scaleCols m s) ⟨1, 1, 1⟩ = colmul m s := by
  ext <;> simp only [colmul, scaleCols] <;> ring

/-- Splitting the all-ones vector over the basis. -/
theorem colmul_ones_split (M : M3) :
    colmul M ⟨1, 1, 1⟩ =
      addV (colmul M ⟨1, 0, 0⟩) (addV (colmul M ⟨0, 1, 0⟩) (colmul M ⟨0, 0, 1⟩)) := by
  ext <;> simp only [colmul, addV] <;> ring

/-- The basis matrix applied to a coefficient vector is the
corresponding combination of the homogeneous corner lifts. -/
theorem mOf_colmul (b1 b2 b3 : Corner) (c : V3) :
    colmul (mOf b1 b2 b3) c =
      addV (smulV c.v0 (hom b1)) (addV (smulV c.v1 (hom b2)) (smulV c.v2 (hom b3))) := by
  ext <;> simp only [colmul, mOf, addV, smulV, hom] <;> ring

/-- The full package extracted from a successful basisToPoints call on a
quadrilateral with no three collinear corners: the basis matrix exists,
its scale coefficients are nonzero, its determinant is nonzero, its
columns are the scaled homogeneous corners, and its column sum is the
fourth corner. -/
theorem btp_pack (p1 p2 p3 p4 : Corner)
    (h1 : colDet p1 p2 p3 ≠ 0) (h2 : colDet p4 p2 p3 ≠ 0)
    (h3 : colDet p1 p4 p3 ≠ 0) (h4 : colDet p1 p2 p4 ≠ 0) :
    ∃ (B : M3) (s : V3), basisToPoints p1 p2 p3 p4 = some B ∧
      s.v0 ≠ 0 ∧ s.v1 ≠ 0 ∧ s.v2 ≠ 0 ∧ det3 B ≠ 0 ∧
      colmul B ⟨1, 0, 0⟩ = smulV s.v0 (hom p1) ∧
      colmul B ⟨0, 1, 0⟩ = smulV s.v1 (hom p2) ∧
      colmul B ⟨0, 0, 1⟩ = smulV s.v2 (hom p3) ∧
      colmul B ⟨1, 1, 1⟩ = hom p4 := by
  have hd : det3 (mOf p1 p2 p3) ≠ 0 := h1
  obtain ⟨s, hs⟩ := solve_of_det (mOf p1 p2 p3) (hom p4) hd
  obtain ⟨-, hcol⟩ := solve_colmul _ _ _ hs
  have hsv := adj_colmul_self (mOf p1 p2 p3) s
  rw [hcol] at hsv
  have e0 : colDet p4 p2 p3 = det3 (mOf p1 p2 p3) * s.v0 :=
    (adjv_v0 p1 p2 p3 p4).symm.trans (congrArg V3.v0 hsv)
  have e1 : colDet p1 p4 p3 = det3 (mOf p1 p2 p3) * s.v1 :=
    (adjv_v1 p1 p2 p3 p4).symm.trans (congrArg V3.v1 hsv)
  have e2 : colDet p1 p2 p4 = det3 (mOf p1 p2 p3) * s.v2 :=
    (adjv_v2 p1 p2 p3 p4).symm.trans (congrArg V3.v2 hsv)
  have hs0 : s.v0 ≠ 0 := by
    intro hz
    rw [hz, mul_zero] at e0
    exact h2 e0
  have hs1 : s.v1 ≠ 0 := by
    intro hz
    rw [hz, mul_zero] at e1
    exact h3 e1
  have hs2 : s.v2 ≠ 0 := by
    intro hz
    rw [hz, mul_zero] at e2
    exact h4 e2
  refine ⟨scaleCols (mOf p1 p2 p3) s, s, ?_, hs0, hs1, hs2, ?_, ?_, ?_, ?_, ?_⟩
  · unfold basisToPoints
    rw [hs]
  · rw [det3_scaleCols]
    exact mul_ne_zero hd (mul_ne_zero (mul_ne_zero hs0 hs1) hs2)
  · exact scaleCols_e1 p1 p2 p3 s
  · exact scaleCols_e2 p1 p2 p3 s
  · exact scaleCols_e3 p1 p2 p3 s
  · rw [scaleCols_ones, hcol]

/-- A projective image relation scaled on both sides yields the
perspective-divide correspondence. -/
theorem mapsTo_of_smul (H : M3) (p q : Corner) (c d : ℚ) (hc : c ≠ 0) (hd : d ≠ 0)
    (h : smulV c (colmul H (hom p)) = smulV d (hom q)) : mapsTo H p q := by
  have h0 := congrArg V3.v0 h
  have h1 := congrArg V3.v1 h
  have h2 := congrArg V3.v2 h
  simp only [smulV, colmul, hom] at h0 h1 h2
  have hw : H.m6 * p.x + H.m7 * p.y + H.m8 ≠ 0 := by
    intro hz
    apply hd
    have : d = 0 := by linear_combination c * hz - h2
    exact this
  refine ⟨hw, ?_, ?_⟩
  · rw [div_eq_iff hw]
    have hkey :
        c * ((H.m0 * p.x + H.m1 * p.y + H.m2) -
          q.x * (H.m6 * p.x + H.m7 * p.y + H.m8)) = 0 := by
      linear_combination h0 - q.x * h2
    rcases mul_eq_zero.mp hkey with h' | h'
    · exact absurd h' hc
    · linarith
  · rw [div_eq_iff hw]
    have hkey :
        c * ((H.m3 * p.x + H.m4 * p.y + H.m5) -
          q.y * (H.m6 * p.x + H.m7 * p.y + H.m8)) = 0 := by
      linear_combination h1 - q.y * h2
    rcases mul_eq_zero.mp hkey with h' | h'
    · exact absurd h' hc
    · linarith

/-- Conversely, the correspondence gives the projective image relation
with the third coordinate as the scale. -/
theorem colmul_of_mapsTo (H : M3) (p q : Corner) (h : mapsTo H p q) :
    H.m6 * p.x + H.m7 * p.y + H.m8 ≠ 0 ∧
      colmul H (hom p) = smulV (H.m6 * p.x + H.m7 * p.y + H.m8) (hom q) := by
  obtain ⟨hw, hx, hy⟩ := h
  rw [div_eq_iff hw] at hx hy
  refine ⟨hw, ?_⟩
  ext
  · simp only [colmul, hom, smulV]
    linear_combination hx
  · simp only [colmul, hom, smulV]
    linear_combination hy
  · simp only [colmul, hom, smulV]
    ring

/-- Normalization preserves the correspondence when the divisor is
nonzero. -/
theorem mapsTo_normalizeM (M : M3) (h8 : M.m8 ≠ 0) (p q : Corner)
    (h : mapsTo M p q) : mapsTo (normalizeM M) p q := by
  obtain ⟨hw, hcol⟩ := colmul_of_mapsTo M p q h
  apply mapsTo_of_smul (normalizeM M) p q M.m8 (M.m6 * p.x + M.m7 * p.y + M.m8) h8 hw
  rw [normalizeM_colmul, smulV_smulV, mul_one_div, div_self h8, smulV_one, hcol]

/-- When both basis matrices exist, computeCssMatrix returns the
embedding of the normalized product. -/
theorem computeCssMatrix_some (s1 s2 s3 s4 d1 d2 d3 d4 : Corner) (M : M3)
    (h : preMatrix s1 s2 s3 s4 d1 d2 d3 d4 = some M) :
    computeCssMatrix s1 s2 s3 s4 d1 d2 d3 d4 = some (embed16 (normalizeM M)) := by
  unfold computeCssMatrix
  rw [h]

/-- Claim C2 counterexample: a session holding the valid identity Render
Matrix (computed for the default 100x100 points on a 100x100 container)
whose topRight corner is then moved to (50,50), making topLeft, topRight,
bottomRight collinear.  The recompute effect does not retain the prior
matrix: it overwrites it with the empty sentinel (setMatrix of the empty
string returned by computeCssMatrix). -/
theorem c2_counterexample :
    (recomputeEffect 100 100 ⟨defaultPoints, none⟩).matrix
        = some [1, 0, 0, 0, 0, 1, 0, 0, 0, 0, 1, 0, 0, 0, 0, 1] ∧
      (recomputeEffect 100 100
          (moveCorner (recomputeEffect 100 100 ⟨defaultPoints, none⟩)
            CName.topRight ⟨50, 50⟩)).matrix = none := by
  norm_num [recomputeEffect, moveCorner, movePoint, defaultPoints, computeCssMatrix,
    preMatrix, basisToPoints, solve, mOf, hom, scaleCols, multmm, adj, det3,
    normalizeM, embed16]

/-- Claim C2 (amended): when a recomputation on a container of nonzero
size meets a degenerate destination quadrilateral (computeCssMatrix
returns the empty result), the session's matrix is replaced by the empty
sentinel — in particular it is no longer equal to any previously held
valid matrix M0, rather than being left untouched. -/
theorem c2_degenClears (st : Session) (w h : ℚ) (hw : w ≠ 0) (hh : h ≠ 0)
    (hdeg : computeCssMatrix ⟨0, 0⟩ ⟨w, 0⟩ ⟨w, h⟩ ⟨0, h⟩
        st.points.topLeft st.points.topRight
        st.points.bottomRight st.points.bottomLeft = none) :
    (recomputeEffect w h st).matrix = none ∧
      ∀ M0, st.matrix = some M0 →
        (recomputeEffect w h st).matrix ≠ st.matrix := by
  have hcond : ¬(w = 0 ∨ h = 0) := not_or.mpr ⟨hw, hh⟩
  refine ⟨?_, ?_⟩
  · simp [recomputeEffect, hcond, hdeg]
  · intro M0 hM0
    simp [recomputeEffect, hcond, hdeg, hM0]

/-- Claim C2 witness: concrete degenerate move on a session holding the
identity matrix; the matrix is cleared. -/
theorem c2_degenClears_witness :
    (recomputeEffect 100 100
        ⟨⟨⟨0, 0⟩, ⟨50, 50⟩, ⟨100, 100⟩, ⟨0, 100⟩⟩,
          some [1, 0, 0, 0, 0, 1, 0, 0, 0, 0, 1, 0, 0, 0, 0, 1]⟩).matrix
      = none :=
  (c2_degenClears
    ⟨⟨⟨0, 0⟩, ⟨50, 50⟩, ⟨100, 100⟩, ⟨0, 100⟩⟩,
      some [1, 0, 0, 0, 0, 1, 0, 0, 0, 0, 1, 0, 0, 0, 0, 1]⟩
    100 100 (by norm_num) (by norm_num)
    (by norm_num [computeCssMatrix, preMatrix, basisToPoints, solve, mOf, hom,
      scaleCols, multmm, adj, det3])).1

/-- Claim C3 counterexample: source the unit square, destination
((0,0),(1,0),(0,1),(1/2,1/2)) (the fourth point on the line through the
second and third).  Both basis solves succeed, the unnormalized
homography has bottom-right entry 0 (chkM8 is false), yet
computeCssMatrix performs no zero test and still returns a matrix (whose
entries are produced by dividing by zero: non-finite in JavaScript, the
junk value 0 in the rational model) instead of signalling
DegenerateMapping. -/
theorem c3_counterexample :
    preMatrix ⟨0, 0⟩ ⟨1, 0⟩ ⟨1, 1⟩ ⟨0, 1⟩ ⟨0, 0⟩ ⟨1, 0⟩ ⟨0, 1⟩ ⟨1/2, 1/2⟩
        = some ⟨1/2, -1/2, 0, 0, -1/2, 0, 1/2, -1, 0⟩ ∧
      (⟨1/2, -1/2, 0, 0, -1/2, 0, 1/2, -1, 0⟩ : M3).m8 = 0 ∧
      computeCssMatrix ⟨0, 0⟩ ⟨1, 0⟩ ⟨1, 1⟩ ⟨0, 1⟩ ⟨0, 0⟩ ⟨1, 0⟩ ⟨0, 1⟩ ⟨1/2, 1/2⟩
        = some [0, 0, 0, 0, 0, 0, 0, 0, 0, 0, 1, 0, 0, 0, 0, 0] := by
  norm_num [computeCssMatrix, preMatrix, basisToPoints, solve, mOf, hom, scaleCols,
    multmm, adj, det3, normalizeM, embed16]

/-- Claim C3 (amended): the solver performs no check on the bottom-right
entry before normalizing.  Whenever both basis matrices exist it returns
the unconditionally divided matrix — even when that entry is zero — and
the only degeneracy ever signalled is a zero determinant inside solve. -/
theorem c3_noZeroCheck (s1 s2 s3 s4 d1 d2 d3 d4 : Corner) (M : M3)
    (h : preMatrix s1 s2 s3 s4 d1 d2 d3 d4 = some M) :
    computeCssMatrix s1 s2 s3 s4 d1 d2 d3 d4 = some (embed16 (normalizeM M)) := by
  unfold computeCssMatrix
  rw [h]

/-- Claim C3 witness: the unchecked division happens at the degenerate
input itself (bottom-right entry 0): a matrix is returned anyway. -/
theorem c3_noZeroCheck_witness :
    computeCssMatrix ⟨0, 0⟩ ⟨1, 0⟩ ⟨1, 1⟩ ⟨0, 1⟩ ⟨0, 0⟩ ⟨1, 0⟩ ⟨0, 1⟩ ⟨1/2, 1/2⟩
      = some (embed16 (normalizeM ⟨1/2, -1/2, 0, 0, -1/2, 0, 1/2, -1, 0⟩)) :=
  c3_noZeroCheck ⟨0, 0⟩ ⟨1, 0⟩ ⟨1, 1⟩ ⟨0, 1⟩ ⟨0, 0⟩ ⟨1, 0⟩ ⟨0, 1⟩ ⟨1/2, 1/2⟩
    ⟨1/2, -1/2, 0, 0, -1/2, 0, 1/2, -1, 0⟩
    (by norm_num [preMatrix, basisToPoints, solve, mOf, hom, scaleCols, multmm,
      adj, det3])

/-- Claim C6: every successful computeCssMatrix result is exactly the
fixed 16-entry column-major embedding of the normalized 3x3 homography:
positions 2, 6, 8, 9, 11, 14 are 0, position 10 is 1, and the
perspective-divide terms (third row and third column of the 3x3) sit in
the fourth row and fourth column. -/
theorem c6_embedding (s1 s2 s3 s4 d1 d2 d3 d4 : Corner) (l : List ℚ)
    (h : computeCssMatrix s1 s2 s3 s4 d1 d2 d3 d4 = some l) :
    (∃ M, preMatrix s1 s2 s3 s4 d1 d2 d3 d4 = some M ∧
        l = embed16 (normalizeM M)) ∧
      l.getD 2 0 = 0 ∧ l.getD 6 0 = 0 ∧ l.getD 8 0 = 0 ∧ l.getD 9 0 = 0 ∧
      l.getD 10 0 = 1 ∧ l.getD 11 0 = 0 ∧ l.getD 14 0 = 0 := by
  unfold computeCssMatrix at h
  cases hp : preMatrix s1 s2 s3 s4 d1 d2 d3 d4 with
  | none => rw [hp] at h; exact absurd h (by simp)
  | some M =>
    rw [hp] at h
    have hl : l = embed16 (normalizeM M) := by
      injection h with h2
      exact h2.symm
    subst hl
    exact ⟨⟨M, rfl, rfl⟩, rfl, rfl, rfl, rfl, rfl, rfl, rfl⟩

/-- Claim C6 witness: the embedding facts at a concrete successful
solve (unit square to itself). -/
theorem c6_embedding_witness :
    ([1, 0, 0, 0, 0, 1, 0, 0, 0, 0, 1, 0, 0, 0, 0, 1] : List ℚ).getD 10 0 = 1 :=
  (c6_embedding ⟨0, 0⟩ ⟨1, 0⟩ ⟨1, 1⟩ ⟨0, 1⟩ ⟨0, 0⟩ ⟨1, 0⟩ ⟨1, 1⟩ ⟨0, 1⟩
    [1, 0, 0, 0, 0, 1, 0, 0, 0, 0, 1, 0, 0, 0, 0, 1]
    (by norm_num [computeCssMatrix, preMatrix, basisToPoints, solve, mOf, hom,
      scaleCols, multmm, adj, det3, normalizeM, embed16])).2.2.2.2.2.1

/-- Claim C7: in the auto-fit path (points not controlled, no stored
points loaded), a measurement with strictly positive width and height
rewrites topRight, bottomRight, bottomLeft to (w,0), (w,h), (0,h) and
leaves topLeft exactly as it was (so a topLeft at the origin stays at
the origin); a measurement with zero width or height changes nothing. -/
theorem c7_autoFit (w h : ℚ) (p : Points) :
    (0 < w → 0 < h →
      (resizeStep false false w h p).topRight = ⟨w, 0⟩ ∧
        (resizeStep false false w h p).bottomRight = ⟨w, h⟩ ∧
        (resizeStep false false w h p).bottomLeft = ⟨0, h⟩ ∧
        (resizeStep false false w h p).topLeft = p.topLeft) ∧
      ((w = 0 ∨ h = 0) → resizeStep false false w h p = p) := by
  constructor
  · intro hw hh
    simp [resizeStep, hw, hh]
  · rintro (rfl | rfl) <;> simp [resizeStep]

/-- Claim C7 witness: a concrete 200x100 measurement on the default
points. -/
theorem c7_autoFit_witness :
    (resizeStep false false 200 100 defaultPoints).topRight = ⟨200, 0⟩ :=
  (((c7_autoFit 200 100 defaultPoints).1 (by norm_num) (by norm_num))).1

/-- Claim C8: the drag update replaces exactly the named corner with the
new position; every other corner of the resulting Points is the very
corner value of the prior Points. -/
theorem c8_moveIsolation (p : Points) (c : CName) (q : Corner) :
    getCorner (movePoint p c q) c = q ∧
      ∀ c2 : CName, c2 ≠ c → getCorner (movePoint p c q) c2 = getCorner p c2 := by
  cases c <;>
    refine ⟨rfl, ?_⟩ <;>
    intro c2 h2 <;>
    cases c2 <;>
    first
      | rfl
      | exact absurd rfl h2

/-- Claim C8 witness: moving topRight leaves bottomLeft bit-identical. -/
theorem c8_moveIsolation_witness :
    getCorner (movePoint defaultPoints CName.topRight ⟨7, 8⟩) CName.bottomLeft
      = getCorner defaultPoints CName.bottomLeft :=
  (c8_moveIsolation defaultPoints CName.topRight ⟨7, 8⟩).2 CName.bottomLeft (by decide)

/-- Claim C9: the startup load accepts a stored record only when all
four named corners are present; any record with a missing corner, an
unparseable value, or an absent key leaves the default points in place
(and the load function is total — no crash). -/
theorem c9_loadValidation (cur : Points) (tl tr br bl : Option Corner) :
    (∀ a b c d : Corner,
        loadPoints cur
            (some (StoredVal.record (some a) (some b) (some c) (some d)))
          = ⟨a, b, c, d⟩) ∧
      ((tl = none ∨ tr = none ∨ br = none ∨ bl = none) →
        loadPoints cur (some (StoredVal.record tl tr br bl)) = cur) ∧
      loadPoints cur (some StoredVal.malformed) = cur ∧
      loadPoints cur none = cur := by
  refine ⟨fun a b c d => rfl, ?_, rfl, rfl⟩
  intro h0
  cases tl <;> cases tr <;> cases br <;> cases bl <;>
    first
      | rfl
      | simp at h0

/-- Claim C9 witness: a record missing topLeft is rejected and the
default points stand. -/
theorem c9_loadValidation_witness :
    loadPoints defaultPoints
        (some (StoredVal.record none (some ⟨1, 2⟩) (some ⟨3, 4⟩) (some ⟨5, 6⟩)))
      = defaultPoints :=
  (c9_loadValidation defaultPoints none (some ⟨1, 2⟩) (some ⟨3, 4⟩)
    (some ⟨5, 6⟩)).2.1 (Or.inl rfl)

/-- Claim C10: with the points prop supplied at every step (controlled
mode), the load effect always returns early, so hasHydrated stays false
across any sequence of load and save effect runs, and the save effect
therefore never writes to localStorage — whether or not a storageKey is
given. -/
theorem c10_controlledNeverWrites (sk : Bool) (es : List Ev) :
    writesIn true sk false es = false ∧ runHy true sk false es = false := by
  induction es with
  | nil => exact ⟨rfl, rfl⟩
  | cons e es ih =>
    cases e with
    | load => simpa [writesIn, runHy, stepHy, loadHydrate] using ih
    | save => simpa [writesIn, runHy, stepHy, saveWrites] using ih

/-- Claim C4: when source and destination quadrilaterals coincide and no
three of the four corners are collinear, computeCssMatrix returns
exactly the 4x4 identity matrix (exact in rational arithmetic). -/
theorem c4_identity (p1 p2 p3 p4 : Corner)
    (h1 : colDet p1 p2 p3 ≠ 0) (h2 : colDet p4 p2 p3 ≠ 0)
    (h3 : colDet p1 p4 p3 ≠ 0) (h4 : colDet p1 p2 p4 ≠ 0) :
    computeCssMatrix p1 p2 p3 p4 p1 p2 p3 p4
      = some [1, 0, 0, 0, 0, 1, 0, 0, 0, 0, 1, 0, 0, 0, 0, 1] := by
  obtain ⟨B, s, hB, hs0, hs1, hs2, hdB, hc1, hc2, hc3, hc4⟩ :=
    btp_pack p1 p2 p3 p4 h1 h2 h3 h4
  have hpre : preMatrix p1 p2 p3 p4 p1 p2 p3 p4 = some (multmm B (adj B)) := by
    unfold preMatrix
    rw [hB]
  have hnorm : normalizeM (smulM (det3 B) idM) = idM := by
    ext <;> simp only [normalizeM, smulM, idM] <;>
      first
        | rw [mul_one, div_self hdB]
        | rw [mul_zero, zero_div]
  rw [computeCssMatrix_some p1 p2 p3 p4 p1 p2 p3 p4 (multmm B (adj B)) hpre,
    multmm_adj_self, hnorm]
  rfl

/-- Claim C4 witness: the default 100x100 rectangle onto itself. -/
theorem c4_identity_witness :
    computeCssMatrix ⟨0, 0⟩ ⟨100, 0⟩ ⟨100, 100⟩ ⟨0, 100⟩
        ⟨0, 0⟩ ⟨100, 0⟩ ⟨100, 100⟩ ⟨0, 100⟩
      = some [1, 0, 0, 0, 0, 1, 0, 0, 0, 0, 1, 0, 0, 0, 0, 1] :=
  c4_identity ⟨0, 0⟩ ⟨100, 0⟩ ⟨100, 100⟩ ⟨0, 100⟩
    (by norm_num [colDet, det3, mOf]) (by norm_num [colDet, det3, mOf])
    (by norm_num [colDet, det3, mOf]) (by norm_num [colDet, det3, mOf])

/-- Claim C5: for nondegenerate basis matrices the adjugate-only
homography and the true-inverse homography agree after normalization:
the determinant factor cancels exactly in the division by the
bottom-right entry. -/
theorem c5_adjEquivInverse (Bsrc Bdst : M3)
    (hsrc : det3 Bsrc ≠ 0) (hdst : det3 Bdst ≠ 0) :
    normalizeM (multmm Bdst (adj Bsrc)) = normalizeM (multmm Bdst (inv3 Bsrc)) := by
  have hrw : multmm Bdst (inv3 Bsrc)
      = smulM (1 / det3 Bsrc) (multmm Bdst (adj Bsrc)) := by
    unfold inv3
    rw [multmm_smulM_right]
  rw [hrw]
  have hc : (1 : ℚ) / det3 Bsrc ≠ 0 := one_div_ne_zero hsrc
  ext <;> simp only [normalizeM, smulM] <;> rw [mul_div_mul_left _ _ hc]

/-- Claim C5 witness: both basis matrices the identity. -/
theorem c5_adjEquivInverse_witness :
    normalizeM (multmm idM (adj idM)) = normalizeM (multmm idM (inv3 idM)) :=
  c5_adjEquivInverse idM idM (by norm_num [det3, idM]) (by norm_num [det3, idM])

/-- Claim C1 counterexample: the square ((1,1),(2,1),(2,2),(1,2)) onto
((1,1),(1/2,1/2),(1/2,1),(1,2)).  No three corners of either
quadrilateral are collinear, yet the true homography here sends the
source corner grid through the projective map (x,y) to (1/x, y/x), whose
matrix has bottom-right entry 0; the solver divides by that zero and
returns a matrix (all zeros in the rational model, non-finite in
JavaScript) that does not reproduce the first destination corner —
so the guarantee fails as stated. -/
theorem c1_counterexample :
    colDet ⟨1, 1⟩ ⟨2, 1⟩ ⟨2, 2⟩ ≠ 0 ∧ colDet ⟨1, 2⟩ ⟨2, 1⟩ ⟨2, 2⟩ ≠ 0 ∧
      colDet ⟨1, 1⟩ ⟨1, 2⟩ ⟨2, 2⟩ ≠ 0 ∧ colDet ⟨1, 1⟩ ⟨2, 1⟩ ⟨1, 2⟩ ≠ 0 ∧
      colDet ⟨1, 1⟩ ⟨1/2, 1/2⟩ ⟨1/2, 1⟩ ≠ 0 ∧
      colDet ⟨1, 2⟩ ⟨1/2, 1/2⟩ ⟨1/2, 1⟩ ≠ 0 ∧
      colDet ⟨1, 1⟩ ⟨1, 2⟩ ⟨1/2, 1⟩ ≠ 0 ∧
      colDet ⟨1, 1⟩ ⟨1/2, 1/2⟩ ⟨1, 2⟩ ≠ 0 ∧
      computeCssMatrix ⟨1, 1⟩ ⟨2, 1⟩ ⟨2, 2⟩ ⟨1, 2⟩
          ⟨1, 1⟩ ⟨1/2, 1/2⟩ ⟨1/2, 1⟩ ⟨1, 2⟩
        = some (embed16 ⟨0, 0, 0, 0, 0, 0, 0, 0, 0⟩) ∧
      ¬ mapsTo ⟨0, 0, 0, 0, 0, 0, 0, 0, 0⟩ ⟨1, 1⟩ ⟨1, 1⟩ := by
  norm_num [colDet, det3, mOf, computeCssMatrix, preMatrix, basisToPoints, solve,
    hom, scaleCols, multmm, adj, normalizeM, embed16, mapsTo]

/-- Claim C1 (amended): for source and destination quadrilaterals with
no three collinear corners, and whose unnormalized homography has a
nonzero bottom-right entry (chkM8), computeCssMatrix returns the
embedding of a normalized matrix H (bottom-right entry 1) that maps each
of the four source corners exactly onto the corresponding destination
corner under homogeneous application and perspective division, and H is
the unique such normalized matrix. -/
theorem c1_correspondence (a1 a2 a3 a4 b1 b2 b3 b4 : Corner)
    (ha1 : colDet a1 a2 a3 ≠ 0) (ha2 : colDet a4 a2 a3 ≠ 0)
    (ha3 : colDet a1 a4 a3 ≠ 0) (ha4 : colDet a1 a2 a4 ≠ 0)
    (hb1 : colDet b1 b2 b3 ≠ 0) (hb2 : colDet b4 b2 b3 ≠ 0)
    (hb3 : colDet b1 b4 b3 ≠ 0) (hb4 : colDet b1 b2 b4 ≠ 0)
    (hm8 : chkM8 a1 a2 a3 a4 b1 b2 b3 b4 = true) :
    ∃ H : M3,
      computeCssMatrix a1 a2 a3 a4 b1 b2 b3 b4 = some (embed16 H) ∧
      H.m8 = 1 ∧
      mapsTo H a1 b1 ∧ mapsTo H a2 b2 ∧ mapsTo H a3 b3 ∧ mapsTo H a4 b4 ∧
      ∀ K : M3, K.m8 = 1 → mapsTo K a1 b1 → mapsTo K a2 b2 → mapsTo K a3 b3 →
        mapsTo K a4 b4 → K = H := by
  obtain ⟨B1, s, hB1, hs0, hs1, hs2, hdB1, hc1, hc2, hc3, hc4⟩ :=
    btp_pack a1 a2 a3 a4 ha1 ha2 ha3 ha4
  obtain ⟨B2, u, hB2, hu0, hu1, hu2, hdB2, hd1, hd2, hd3, hd4⟩ :=
    btp_pack b1 b2 b3 b4 hb1 hb2 hb3 hb4
  have hpre : preMatrix a1 a2 a3 a4 b1 b2 b3 b4 = some (multmm B2 (adj B1)) := by
    unfold preMatrix
    rw [hB1, hB2]
  have h8 : (multmm B2 (adj B1)).m8 ≠ 0 := by
    unfold chkM8 at hm8
    rw [hpre] at hm8
    exact of_decide_eq_true hm8
  have key : ∀ e : V3, colmul (multmm B2 (adj B1)) (colmul B1 e)
      = smulV (det3 B1) (colmul B2 e) := by
    intro e
    rw [colmul_multmm, adj_colmul_self, colmul_smulV]
  have hm1 : mapsTo (multmm B2 (adj B1)) a1 b1 := by
    apply mapsTo_of_smul _ _ _ s.v0 (det3 B1 * u.v0) hs0 (mul_ne_zero hdB1 hu0)
    calc smulV s.v0 (colmul (multmm B2 (adj B1)) (hom a1))
        = colmul (multmm B2 (adj B1)) (smulV s.v0 (hom a1)) :=
          (colmul_smulV _ _ _).symm
      _ = colmul (multmm B2 (adj B1)) (colmul B1 ⟨1, 0, 0⟩) := by rw [hc1]
      _ = smulV (det3 B1) (colmul B2 ⟨1, 0, 0⟩) := key ⟨1, 0, 0⟩
      _ = smulV (det3 B1) (smulV u.v0 (hom b1)) := by rw [hd1]
      _ = smulV (det3 B1 * u.v0) (hom b1) := smulV_smulV _ _ _
  have hm2 : mapsTo (multmm B2 (adj B1)) a2 b2 := by
    apply mapsTo_of_smul _ _ _ s.v1 (det3 B1 * u.v1) hs1 (mul_ne_zero hdB1 hu1)
    calc smulV s.v1 (colmul (multmm B2 (adj B1)) (hom a2))
        = colmul (multmm B2 (adj B1)) (smulV s.v1 (hom a2)) :=
          (colmul_smulV _ _ _).symm
      _ = colmul (multmm B2 (adj B1)) (colmul B1 ⟨0, 1, 0⟩) := by rw [hc2]
      _ = smulV (det3 B1) (colmul B2 ⟨0, 1, 0⟩) := key ⟨0, 1, 0⟩
      _ = smulV (det3 B1) (smulV u.v1 (hom b2)) := by rw [hd2]
      _ = smulV (det3 B1 * u.v1) (hom b2) := smulV_smulV _ _ _
  have hm3 : mapsTo (multmm B2 (adj B1)) a3 b3 := by
    apply mapsTo_of_smul _ _ _ s.v2 (det3 B1 * u.v2) hs2 (mul_ne_zero hdB1 hu2)
    calc smulV s.v2 (colmul (multmm B2 (adj B1)) (hom a3))
        = colmul (multmm B2 (adj B1)) (smulV s.v2 (hom a3)) :=
          (colmul_smulV _ _ _).symm
      _ = colmul (multmm B2 (adj B1)) (colmul B1 ⟨0, 0, 1⟩) := by rw [hc3]
      _ = smulV (det3 B1) (colmul B2 ⟨0, 0, 1⟩) := key ⟨0, 0, 1⟩
      _ = smulV (det3 B1) (smulV u.v2 (hom b3)) := by rw [hd3]
      _ = smulV (det3 B1 * u.v2) (hom b3) := smulV_smulV _ _ _
  have hm4 : mapsTo (multmm B2 (adj B1)) a4 b4 := by
    apply mapsTo_of_smul _ _ _ 1 (det3 B1) one_ne_zero hdB1
    rw [smulV_one]
    calc colmul (multmm B2 (adj B1)) (hom a4)
        = colmul (multmm B2 (adj B1)) (colmul B1 ⟨1, 1, 1⟩) := by rw [hc4]
      _ = smulV (det3 B1) (colmul B2 ⟨1, 1, 1⟩) := key ⟨1, 1, 1⟩
      _ = smulV (det3 B1) (hom b4) := by rw [hd4]
  refine ⟨normalizeM (multmm B2 (adj B1)),
    computeCssMatrix_some a1 a2 a3 a4 b1 b2 b3 b4 _ hpre,
    div_self h8,
    mapsTo_normalizeM _ h8 _ _ hm1, mapsTo_normalizeM _ h8 _ _ hm2,
    mapsTo_normalizeM _ h8 _ _ hm3, mapsTo_normalizeM _ h8 _ _ hm4, ?_⟩
  intro K hK8 hk1 hk2 hk3 hk4
  obtain ⟨hw1, hK1⟩ := colmul_of_mapsTo K a1 b1 hk1
  obtain ⟨hw2, hK2⟩ := colmul_of_mapsTo K a2 b2 hk2
  obtain ⟨hw3, hK3⟩ := colmul_of_mapsTo K a3 b3 hk3
  obtain ⟨hw4, hK4⟩ := colmul_of_mapsTo K a4 b4 hk4
  set w1 := K.m6 * a1.x + K.m7 * a1.y + K.m8 with hw1d
  set w2 := K.m6 * a2.x + K.m7 * a2.y + K.m8 with hw2d
  set w3 := K.m6 * a3.x + K.m7 * a3.y + K.m8 with hw3d
  set w4 := K.m6 * a4.x + K.m7 * a4.y + K.m8 with hw4d
  have col1 : colmul (multmm K B1) ⟨1, 0, 0⟩ = smulV (s.v0 * w1) (hom b1) := by
    rw [colmul_multmm, hc1, colmul_smulV, hK1, smulV_smulV]
  have col2 : colmul (multmm K B1) ⟨0, 1, 0⟩ = smulV (s.v1 * w2) (hom b2) := by
    rw [colmul_multmm, hc2, colmul_smulV, hK2, smulV_smulV]
  have col3 : colmul (multmm K B1) ⟨0, 0, 1⟩ = smulV (s.v2 * w3) (hom b3) := by
    rw [colmul_multmm, hc3, colmul_smulV, hK3, smulV_smulV]
  have col4 : colmul (multmm K B1) ⟨1, 1, 1⟩ = smulV w4 (hom b4) := by
    rw [colmul_multmm, hc4, hK4]
  have e1 : addV (smulV (s.v0 * w1) (hom b1))
      (addV (smulV (s.v1 * w2) (hom b2)) (smulV (s.v2 * w3) (hom b3)))
      = smulV w4 (hom b4) := by
    rw [← col1, ← col2, ← col3, ← colmul_ones_split, col4]
  have e2 : hom b4 = addV (smulV u.v0 (hom b1))
      (addV (smulV u.v1 (hom b2)) (smulV u.v2 (hom b3))) := by
    rw [← hd1, ← hd2, ← hd3, ← colmul_ones_split, hd4]
  have hker : colmul (mOf b1 b2 b3)
      ⟨s.v0 * w1 - w4 * u.v0, s.v1 * w2 - w4 * u.v1, s.v2 * w3 - w4 * u.v2⟩
      = ⟨0, 0, 0⟩ := by
    have f := e1
    rw [e2] at f
    have f0 := congrArg V3.v0 f
    have f1 := congrArg V3.v1 f
    have f2 := congrArg V3.v2 f
    simp only [addV, smulV, hom] at f0 f1 f2
    ext
    · simp only [colmul, mOf]
      linear_combination f0
    · simp only [colmul, mOf]
      linear_combination f1
    · simp only [colmul, mOf]
      linear_combination f2
  have hzero := colmul_zero_of_det (mOf b1 b2 b3) hb1 _ hker
  have q0 : s.v0 * w1 = w4 * u.v0 := by
    have hq : s.v0 * w1 - w4 * u.v0 = 0 := congrArg V3.v0 hzero
    linarith
  have q1 : s.v1 * w2 = w4 * u.v1 := by
    have hq : s.v1 * w2 - w4 * u.v1 = 0 := congrArg V3.v1 hzero
    linarith
  have q2 : s.v2 * w3 = w4 * u.v2 := by
    have hq : s.v2 * w3 - w4 * u.v2 = 0 := congrArg V3.v2 hzero
    linarith
  have hKB : multmm K B1 = smulM w4 B2 := by
    apply eq_of_cols
    · rw [col1, q0, colmul_smulM, hd1, smulV_smulV]
    · rw [col2, q1, colmul_smulM, hd2, smulV_smulV]
    · rw [col3, q2, colmul_smulM, hd3, smulV_smulV]
  have hKC : smulM (det3 B1) K = smulM w4 (multmm B2 (adj B1)) := by
    have hmul := congrArg (fun X => multmm X (adj B1)) hKB
    simp only at hmul
    rw [multmm_assoc, multmm_adj_self, multmm_smul_idM, multmm_smulM_left] at hmul
    exact hmul
  have h88 : det3 B1 = w4 * (multmm B2 (adj B1)).m8 := by
    have hent : det3 B1 * K.m8 = w4 * (multmm B2 (adj B1)).m8 :=
      congrArg M3.m8 hKC
    rw [hK8, mul_one] at hent
    exact hent
  have hKC2 : smulM w4 (smulM (multmm B2 (adj B1)).m8 K)
      = smulM w4 (multmm B2 (adj B1)) := by
    rw [smulM_smulM, ← h88]
    exact hKC
  have hCK : smulM (multmm B2 (adj B1)).m8 K = multmm B2 (adj B1) :=
    smulM_cancel w4 hw4 _ _ hKC2
  apply smulM_cancel (multmm B2 (adj B1)).m8 h8
  rw [hCK, smulM_normalizeM _ h8]

/-- Claim C1 witness: the unit square onto itself; the returned
normalized matrix is unique and maps every corner to itself. -/
theorem c1_correspondence_witness :
    ∃ H : M3,
      computeCssMatrix ⟨0, 0⟩ ⟨1, 0⟩ ⟨1, 1⟩ ⟨0, 1⟩ ⟨0, 0⟩ ⟨1, 0⟩ ⟨1, 1⟩ ⟨0, 1⟩
        = some (embed16 H) ∧
      H.m8 = 1 ∧
      mapsTo H ⟨0, 0⟩ ⟨0, 0⟩ ∧ mapsTo H ⟨1, 0⟩ ⟨1, 0⟩ ∧
      mapsTo H ⟨1, 1⟩ ⟨1, 1⟩ ∧ mapsTo H ⟨0, 1⟩ ⟨0, 1⟩ ∧
      ∀ K : M3, K.m8 = 1 → mapsTo K ⟨0, 0⟩ ⟨0, 0⟩ → mapsTo K ⟨1, 0⟩ ⟨1, 0⟩ →
        mapsTo K ⟨1, 1⟩ ⟨1, 1⟩ → mapsTo K ⟨0, 1⟩ ⟨0, 1⟩ → K = H :=
  c1_correspondence ⟨0, 0⟩ ⟨1, 0⟩ ⟨1, 1⟩ ⟨0, 1⟩ ⟨0, 0⟩ ⟨1, 0⟩ ⟨1, 1⟩ ⟨0, 1⟩
    (by norm_num [colDet, det3, mOf]) (by norm_num [colDet, det3, mOf])
    (by norm_num [colDet, det3, mOf]) (by norm_num [colDet, det3, mOf])
    (by norm_num [colDet, det3, mOf]) (by norm_num [colDet, det3, mOf])
    (by norm_num [colDet, det3, mOf]) (by norm_num [colDet, det3, mOf])
    (by norm_num [chkM8, preMatrix, basisToPoints, solve, mOf, hom, scaleCols,
      multmm, adj, det3, decide_eq_true_eq])

end PT
